import Mathlib

/-!
Verification of the Rooman-AI-Agent retrieval pipeline.

The repository has two Python source files:
* `app.py` — an interactive UI process: loads `.txt` documents, chunks them by
  word count, embeds each chunk, and answers queries by cosine-similarity
  retrieval over the in-memory chunk collection.
* `ingest.py` — an offline indexer: extracts text from files, chunks by
  character windows with overlap, embeds the chunks, L2-normalizes the vectors
  and stores them in a flat inner-product index together with metadata.

Python strings are modelled as `List Char`; external library calls (the
sentence-transformer encoder, sklearn's `cosine_similarity`, faiss) are
modelled as function parameters or, where a claim is about their documented
semantics (faiss `normalize_L2`), as explicit definitions over
`EuclideanSpace ℝ`.
-/

namespace RoomanAgent

/-! ### Whitespace splitting: model of Python `str.split()` (no argument)

`text.split()` splits on runs of whitespace and never yields empty strings. -/

/-- Auxiliary scanner for `splitWs`: `cur` is the reversed current word. -/
def splitWsAux : List Char → List Char → List (List Char)
  | [], cur => if cur = [] then [] else [cur.reverse]
  | c :: rest, cur =>
    if c.isWhitespace then
      if cur = [] then splitWsAux rest [] else cur.reverse :: splitWsAux rest []
    else
      splitWsAux rest (c :: cur)

/-- Model of Python `text.split()`: maximal whitespace runs are separators,
no empty words are produced. -/
def splitWs (s : List Char) : List (List Char) := splitWsAux s []

/-! ### Python `str.strip()` -/

/-- Model of Python `s.strip()`: remove leading and trailing whitespace. -/
def pstrip (l : List Char) : List Char :=
  ((l.dropWhile Char.isWhitespace).reverse.dropWhile Char.isWhitespace).reverse

/-! ### Interactive word-window chunker (`app.py`, `chunk_text`) -/

/-- The word windows taken by the loop `for i in range(0, len(words), size)`:
block `words[i:i+size]` for `i = 0, size, 2*size, ...`.  For `size ≥ 1`,
`ws.drop (size - 1)` on the tail equals `(w :: ws).drop size`, which is the
loop's next position.  `fuel` bounds the number of iterations; since the
position advances by at least one word per iteration, `fuel = ws.length`
suffices (and is what `chunk_text_app` passes). -/
def wordWindows (size : Nat) : Nat → List (List Char) → List (List (List Char))
  | 0, _ => []
  | _, [] => []
  | fuel + 1, w :: ws =>
    (w :: ws).take size :: wordWindows size fuel (ws.drop (size - 1))

/-- `" ".join(ws)`. -/
def spaceJoin (ws : List (List Char)) : List Char := List.intercalate [' '] ws

/-- Model of `app.py`'s `chunk_text(text, size=300)`: split into words, then
join consecutive `size`-word blocks with single spaces.  Python's
`range(0, n, 0)` raises `ValueError`, modelled by `none`. -/
def chunk_text_app (text : List Char) (size : Nat) : Option (List (List Char)) :=
  if size = 0 then none
  else some ((wordWindows size (splitWs text).length (splitWs text)).map spaceJoin)

/-- Number of words of a chunk, as Python `len(chunk.split())`. -/
def wordCount (s : List Char) : Nat := (splitWs s).length

/-! ### Offline character-window chunker (`ingest.py`, `chunk_text`) -/

/-- Scanner for `collapseWs`; the flag records whether the previous character
was inside a whitespace run (whose single replacement space is already
emitted). -/
def collapseWsAux : Bool → List Char → List Char
  | _, [] => []
  | inRun, c :: rest =>
    if c.isWhitespace then
      if inRun then collapseWsAux true rest else ' ' :: collapseWsAux true rest
    else c :: collapseWsAux false rest

/-- `re.sub(r"\s+", " ", text)`: replace every maximal whitespace run by one
space. -/
def collapseWs (l : List Char) : List Char := collapseWsAux false l

/-- The whitespace normalization at the head of `ingest.py`'s `chunk_text`:
`re.sub(r"\s+", " ", text).strip()`. -/
def normalizeWs (t : List Char) : List Char := pstrip (collapseWs t)

/-- The ingest chunking loop, fuel-indexed.  One iteration of
`while start < len(text)` appends `text[start:start+chunk_size].strip()` and
sets `start = start + chunk_size - overlap` (clamped at 0, which `Nat`
subtraction does). -/
def ingestLoop (fuel : Nat) (t : List Char) (cs ov : Nat) (start : Nat) :
    List (List Char) :=
  match fuel with
  | 0 => []
  | fuel + 1 =>
    if start < t.length then
      pstrip ((t.drop start).take cs) :: ingestLoop fuel t cs ov (start + cs - ov)
    else []

/-- The same loop without the `.strip()` on each window (used to state what
reconstruction the stripping destroys). -/
def windowLoop (fuel : Nat) (t : List Char) (cs ov : Nat) (start : Nat) :
    List (List Char) :=
  match fuel with
  | 0 => []
  | fuel + 1 =>
    if start < t.length then
      (t.drop start).take cs :: windowLoop fuel t cs ov (start + cs - ov)
    else []

/-- Model of `ingest.py`'s `chunk_text(text, chunk_size, overlap)`.  The fuel
`t'.length` suffices whenever `overlap < chunk_size` (theorem below); with
`overlap ≥ chunk_size` the Python loop never terminates. -/
def chunk_text_ingest (t : List Char) (cs ov : Nat) : List (List Char) :=
  if (normalizeWs t).length ≤ cs then [normalizeWs t]
  else ingestLoop (normalizeWs t).length (normalizeWs t) cs ov 0

/-- The raw windows of `chunk_text_ingest` (before per-window stripping). -/
def ingestWindows (t : List Char) (cs ov : Nat) : List (List Char) :=
  if (normalizeWs t).length ≤ cs then [normalizeWs t]
  else windowLoop (normalizeWs t).length (normalizeWs t) cs ov 0

/-- Concatenate chunks dropping the first `ov` characters of every chunk
except the first. -/
def reconstruct (ov : Nat) : List (List Char) → List Char
  | [] => []
  | c :: rest => c ++ (rest.map (List.drop ov)).flatten

/-! ### Data model -/

/-- A knowledge-base chunk record of `app.py` (`{"doc": ..., "chunk": ...,
"embedding": ...}`); the embedding type `V` abstracts the encoder's vectors. -/
structure Chunk (V : Type) where
  doc : String
  chunk : List Char
  embedding : V
deriving DecidableEq

/-- A metadata record of `ingest.py`'s `main` loop
(`{"source": str(f.name), "chunk_id": i, "text_start": None}`; the constant
`text_start` field is omitted). -/
structure MetaEntry where
  source : String
  chunk_id : Nat
deriving DecidableEq

/-- A file of the documents folder as seen by `ingest.py`'s `main`: its name
and the text produced for it by `extract_text_from_file`. -/
structure FileEntry where
  name : String
  text : List Char
deriving DecidableEq

/-- A directory entry as seen by `app.py`'s `load_documents`: a name, whether
it is a regular file, and its content. -/
structure DirEntry where
  name : String
  isFile : Bool
  content : List Char
deriving DecidableEq

def CHUNK_SIZE_CHARS : Nat := 1200

def CHUNK_OVERLAP : Nat := 200

/-! ### `app.py` operations -/

/-- `load_documents`: keep the regular files whose path ends in `".txt"` and
pair each name with the file's content (`path.endswith(".txt")` is the
character-suffix test on the name). -/
def load_documents (entries : List DirEntry) : List (String × List Char) :=
  (entries.filter fun e => e.isFile && ".txt".toList.isSuffixOf e.name.toList).map
    fun e => (e.name, e.content)

/-- The knowledge-base construction loop of `app.py`: for every document,
every chunk of `chunk_text(content)` (default size 300) becomes a record with
the document name and the chunk's embedding.  `encode` abstracts
`MODEL.encode`; `300 ≠ 0`, so the `getD` default is never used. -/
def buildChunks {V : Type} (encode : List Char → V)
    (docs : List (String × List Char)) : List (Chunk V) :=
  docs.flatMap fun d =>
    ((chunk_text_app d.2 300).getD []).map fun ch => ⟨d.1, ch, encode ch⟩

/-- The per-chunk similarity scores of `retrieve`:
`[cosine_similarity([q_emb], [c["embedding"]])[0][0] for c in chunks]`.
`sim` abstracts sklearn's `cosine_similarity` on a pair of vectors. -/
def simScores {V : Type} (sim : V → V → ℚ) (q_emb : V)
    (chunks : List (Chunk V)) : List ℚ :=
  chunks.map fun c => sim q_emb c.embedding

/-- `sorted(range(len(sims)), key=lambda i: sims[i], reverse=True)`: the
indices sorted by descending score (Python's sort is stable, as is
insertion sort). -/
def rankIdx (sims : List ℚ) : List Nat :=
  List.insertionSort (fun i j => sims.getD j 0 ≤ sims.getD i 0)
    (List.range sims.length)

/-- `app.py`'s `retrieve(query, top_k)`: embed the query, score every chunk,
sort indices by descending score and return the first `top_k` chunks. -/
def retrieve {V : Type} (sim : V → V → ℚ) (encode : List Char → V)
    (chunks : List (Chunk V)) (query : List Char) (top_k : Nat) :
    List (Chunk V) :=
  ((rankIdx (simScores sim (encode query) chunks)).take top_k).map
    fun i => chunks.getD i ⟨"", [], encode query⟩

/-- The API-key configuration at the top of `app.py`:
`GEMINI_API_KEY = os.getenv("GEMINI_API_KEY", "")` followed by
`genai.configure(api_key=GEMINI_API_KEY)`.  The code contains no key check and
cannot raise here; the result is the key value handed to `genai.configure`. -/
def appStartup (env : String → Option String) : Except String String :=
  Except.ok ((env "GEMINI_API_KEY").getD "")

/-! ### `ingest.py` operations -/

/-- The accumulation loop of `ingest.py`'s `main`: for each file, skip it when
`not text or len(text.strip()) < 20`, otherwise append its chunks to
`all_texts` and, for the `i`-th chunk, `{"source": f.name, "chunk_id": i}` to
`meta`. -/
def ingestCollect : List FileEntry → List (List Char) × List MetaEntry
  | [] => ([], [])
  | f :: fs =>
    if f.text = [] ∨ (pstrip f.text).length < 20 then ingestCollect fs
    else
      ((chunk_text_ingest f.text CHUNK_SIZE_CHARS CHUNK_OVERLAP) ++
        (ingestCollect fs).1,
       ((List.range (chunk_text_ingest f.text CHUNK_SIZE_CHARS
          CHUNK_OVERLAP).length).map fun i => ⟨f.name, i⟩) ++ (ingestCollect fs).2)

/-- What `ingest.py` persists on a completed run: the vectors inserted into
the faiss index (`vectorstore.faiss`), the metadata list (`docs_meta.npy`) and
the raw chunk texts (`chunks_texts.json`). -/
structure IngestArtifacts (V : Type) where
  index : List V
  meta : List MetaEntry
  chunksJson : List (List Char)
deriving DecidableEq

/-- `ingest.py`'s `main`, parametric in the embedding vector type `V`, the
embedders (`embed_texts_gemini` / `embed_texts_local`, both external calls)
and `nrm`, which abstracts `faiss.normalize_L2`.  `main` returns early with no
artifacts when the folder holds no files; raises (`Except.error`) when remote
embeddings are selected and the key is empty; otherwise normalizes the
embeddings, normalizes again inside `build_faiss`, and writes the three
artifacts. -/
def mainIngest {V : Type} (nrm : V → V) (useGemini : Bool) (apiKey : String)
    (embedRemote embedLocal : List (List Char) → List V)
    (files : List FileEntry) : Except String (Option (IngestArtifacts V)) :=
  if files = [] then Except.ok none
  else
    if useGemini then
      if apiKey = "" then Except.error "GEMINI_API_KEY not set in environment."
      else Except.ok (some ⟨((embedRemote (ingestCollect files).1).map nrm).map nrm,
        (ingestCollect files).2, (ingestCollect files).1⟩)
    else Except.ok (some ⟨((embedLocal (ingestCollect files).1).map nrm).map nrm,
      (ingestCollect files).2, (ingestCollect files).1⟩)

/-! ### faiss vector normalization (`build_faiss`) -/

/-- `faiss.normalize_L2`, modelled from the faiss documentation: divide each
vector by its Euclidean norm (a zero vector is left alone — in this model
`‖0‖⁻¹ • 0 = 0` as well). -/
noncomputable def faissNormalizeL2 {d : Nat} (v : EuclideanSpace ℝ (Fin d)) :
    EuclideanSpace ℝ (Fin d) := ‖v‖⁻¹ • v

/-- `ingest.py`'s `build_faiss(embs)`: `faiss.normalize_L2(embs)` followed by
`index.add(embs)` and `faiss.write_index`.  The value is the list of vectors
inserted into the persisted inner-product index. -/
noncomputable def build_faiss {d : Nat} (embs : List (EuclideanSpace ℝ (Fin d))) :
    List (EuclideanSpace ℝ (Fin d)) := embs.map faissNormalizeL2

/-- A concrete nonzero embedding vector, used to instantiate the
normalization theorem. -/
def e1 : EuclideanSpace ℝ (Fin 1) := fun _ => 1

/-! ### Lemmas about `splitWs` and `List.intercalate` -/

theorem intercalate_cons2 (s : List Char) (a b : List Char) (l : List (List Char)) :
    List.intercalate s (a :: b :: l) = a ++ s ++ List.intercalate s (b :: l) := by
  simp [List.intercalate, List.intersperse_cons_cons, List.append_assoc]

theorem splitWsAux_words : ∀ (s cur : List Char),
    (∀ c ∈ cur, c.isWhitespace = false) →
    ∀ w ∈ splitWsAux s cur, w ≠ [] ∧ ∀ c ∈ w, c.isWhitespace = false := by
  intro s
  induction s with
  | nil =>
    intro cur hcur w hw
    simp only [splitWsAux] at hw
    split at hw
    · simp at hw
    · next hne =>
      simp only [List.mem_singleton] at hw
      subst hw
      refine ⟨by simpa using hne, ?_⟩
      intro c hc
      exact hcur c (List.mem_reverse.mp hc)
  | cons c rest ih =>
    intro cur hcur w hw
    simp only [splitWsAux] at hw
    by_cases hws : c.isWhitespace
    · rw [if_pos hws] at hw
      split at hw
      · exact ih [] (by simp) w hw
      · next hne =>
        rcases List.mem_cons.mp hw with h | h
        · subst h
          exact ⟨by simpa using hne, fun d hd => hcur d (List.mem_reverse.mp hd)⟩
        · exact ih [] (by simp) w h
    · rw [if_neg hws] at hw
      refine ih (c :: cur) ?_ w hw
      intro d hd
      rcases List.mem_cons.mp hd with h | h
      · subst h
        simpa using hws
      · exact hcur d h

theorem splitWs_words (s : List Char) :
    ∀ w ∈ splitWs s, w ≠ [] ∧ ∀ c ∈ w, c.isWhitespace = false :=
  splitWsAux_words s [] (by simp)

theorem splitWsAux_append (w : List Char) : ∀ (s cur : List Char),
    (∀ c ∈ w, c.isWhitespace = false) →
    splitWsAux (w ++ s) cur = splitWsAux s (w.reverse ++ cur) := by
  induction w with
  | nil => intro s cur _; simp
  | cons c w' ih =>
    intro s cur hw
    have hc : c.isWhitespace = false := hw c (by simp)
    simp only [List.cons_append, splitWsAux, List.append_eq]
    rw [if_neg (by simp [hc])]
    rw [ih s (c :: cur) (fun d hd => hw d (by simp [hd]))]
    simp [List.append_assoc]

theorem splitWs_single (w : List Char) (hne : w ≠ [])
    (hw : ∀ c ∈ w, c.isWhitespace = false) : splitWs w = [w] := by
  have h := splitWsAux_append w [] [] hw
  simp only [List.append_nil] at h
  unfold splitWs
  rw [h]
  simp only [splitWsAux]
  rw [if_neg (by simpa using hne), List.reverse_reverse]

theorem splitWs_cons_space (w s' : List Char) (hne : w ≠ [])
    (hw : ∀ c ∈ w, c.isWhitespace = false) :
    splitWs (w ++ ' ' :: s') = w :: splitWs s' := by
  unfold splitWs
  rw [splitWsAux_append w (' ' :: s') [] hw]
  simp only [List.append_nil, splitWsAux]
  rw [if_pos (by decide), if_neg (by simpa using hne), List.reverse_reverse]

theorem splitWs_intercalate : ∀ (ws : List (List Char)),
    (∀ w ∈ ws, w ≠ [] ∧ ∀ c ∈ w, c.isWhitespace = false) →
    splitWs (List.intercalate [' '] ws) = ws := by
  intro ws
  induction ws with
  | nil => intro _; rfl
  | cons w ws' ih =>
    intro h
    cases ws' with
    | nil =>
      simpa [List.intercalate] using
        splitWs_single w (h w (by simp)).1 (h w (by simp)).2
    | cons w' rest =>
      rw [intercalate_cons2, List.append_assoc, List.singleton_append,
        splitWs_cons_space w _ (h w (by simp)).1 (h w (by simp)).2,
        ih (fun x hx => h x (by simp [hx]))]

theorem intercalate_append_of_ne (s : List Char) : ∀ (xs ys : List (List Char)),
    xs ≠ [] → ys ≠ [] →
    List.intercalate s (xs ++ ys) =
      List.intercalate s xs ++ s ++ List.intercalate s ys := by
  intro xs
  induction xs with
  | nil => intro ys h _; exact absurd rfl h
  | cons a xs' ih =>
    intro ys _ hys
    cases xs' with
    | nil =>
      cases ys with
      | nil => exact absurd rfl hys
      | cons y ys' => simp [intercalate_cons2, List.intercalate]
    | cons a' xs'' =>
      rw [List.cons_append, List.cons_append, intercalate_cons2,
        ← List.cons_append, ih ys (by simp) hys, intercalate_cons2]
      simp [List.append_assoc]

theorem intercalate_map_intercalate (s : List Char) :
    ∀ (blocks : List (List (List Char))), (∀ b ∈ blocks, b ≠ []) →
    List.intercalate s (blocks.map (List.intercalate s)) =
      List.intercalate s blocks.flatten := by
  intro blocks
  induction blocks with
  | nil => intro _; rfl
  | cons b bs ih =>
    intro h
    cases bs with
    | nil => simp [List.intercalate]
    | cons b' rest =>
      have hflat : (b' :: rest).flatten ≠ [] := by
        have hb' : b' ≠ [] := h b' (by simp)
        simp only [List.flatten_cons]
        intro hcontra
        exact hb' (List.append_eq_nil.mp hcontra).1
      rw [List.map_cons, List.map_cons, intercalate_cons2, ← List.map_cons]
      conv_rhs => rw [List.flatten_cons]
      rw [intercalate_append_of_ne s b _ (h b (by simp)) hflat,
        ← ih (fun x hx => h x (by simp [hx]))]

/-! ### Lemmas about the word windows of `app.py`'s `chunk_text` -/

theorem wordWindows_flatten (size : Nat) (hs : 0 < size) : ∀ (fuel : Nat)
    (ws : List (List Char)), ws.length ≤ fuel →
    (wordWindows size fuel ws).flatten = ws := by
  intro fuel
  induction fuel with
  | zero =>
    intro ws h
    have hws : ws = [] := List.length_eq_zero.mp (Nat.le_zero.mp h)
    subst hws
    rfl
  | succ n ih =>
    intro ws h
    cases ws with
    | nil => rfl
    | cons w ws' =>
      simp only [wordWindows, List.flatten_cons]
      rw [ih (ws'.drop (size - 1))
        (by simp only [List.length_drop]; simp only [List.length_cons] at h; omega)]
      have hdrop : ws'.drop (size - 1) = (w :: ws').drop size := by
        cases size with
        | zero => omega
        | succ k => simp [List.drop_succ_cons]
      rw [hdrop, List.take_append_drop]

theorem wordWindows_mem (size : Nat) : ∀ (fuel : Nat) (ws : List (List Char)),
    ∀ b ∈ wordWindows size fuel ws,
    b.length ≤ size ∧ (∀ w ∈ b, w ∈ ws) ∧ (0 < size → b ≠ []) := by
  intro fuel
  induction fuel with
  | zero => intro ws b hb; simp [wordWindows] at hb
  | succ n ih =>
    intro ws b hb
    cases ws with
    | nil => simp [wordWindows] at hb
    | cons w ws' =>
      simp only [wordWindows] at hb
      rcases List.mem_cons.mp hb with hb | hb
      · subst hb
        refine ⟨by simp only [List.length_take]; exact Nat.min_le_left _ _, ?_, ?_⟩
        · intro x hx
          exact List.mem_of_mem_take hx
        · intro hpos
          simp [List.take_eq_nil_iff, Nat.pos_iff_ne_zero.mp hpos]
      · obtain ⟨h1, h2, h3⟩ := ih (ws'.drop (size - 1)) b hb
        exact ⟨h1, fun x hx => List.mem_cons_of_mem w (List.mem_of_mem_drop (h2 x hx)),
          h3⟩

/-- Every word of every chunk produced by `app.py`'s `chunk_text` is a word of
the input, nonempty, and whitespace-free; and every chunk holds at most `size`
words. -/
theorem chunk_text_app_blocks (text : List Char) (size fuel : Nat)
    (b : List (List Char)) (hb : b ∈ wordWindows size fuel (splitWs text)) :
    b.length ≤ size ∧ (∀ w ∈ b, w ≠ [] ∧ ∀ c ∈ w, c.isWhitespace = false) ∧
      (0 < size → b ≠ []) := by
  obtain ⟨h1, h2, h3⟩ := wordWindows_mem size fuel (splitWs text) b hb
  exact ⟨h1, fun w hw => splitWs_words text w (h2 w hw), h3⟩

/-! ### Lemmas about `pstrip` -/

theorem pstrip_length_le (l : List Char) : (pstrip l).length ≤ l.length := by
  unfold pstrip
  calc ((l.dropWhile Char.isWhitespace).reverse.dropWhile Char.isWhitespace).reverse.length
      = ((l.dropWhile Char.isWhitespace).reverse.dropWhile Char.isWhitespace).length := by
        rw [List.length_reverse]
    _ ≤ (l.dropWhile Char.isWhitespace).reverse.length :=
        (List.dropWhile_suffix _).length_le
    _ = (l.dropWhile Char.isWhitespace).length := by rw [List.length_reverse]
    _ ≤ l.length := (List.dropWhile_suffix _).length_le

theorem dropWhile_head_false {p : Char → Bool} : ∀ (l : List Char) {x xs},
    l.dropWhile p = x :: xs → p x = false := by
  intro l
  induction l with
  | nil => intro x xs h; simp at h
  | cons c l' ih =>
    intro x xs h
    rw [List.dropWhile_cons] at h
    split at h
    · exact ih h
    · next hc =>
      cases h
      simpa using hc

theorem dropWhile_self (p : Char → Bool) (l : List Char) :
    (l.dropWhile p).dropWhile p = l.dropWhile p := by
  induction l with
  | nil => rfl
  | cons c l' ih =>
    rw [List.dropWhile_cons]
    split
    · exact ih
    · next hc => rw [List.dropWhile_cons, if_neg hc]

theorem pstrip_eq_self_of_pstrip (l : List Char) : pstrip (pstrip l) = pstrip l := by
  have hpre : pstrip l <+: l.dropWhile Char.isWhitespace := by
    have h0 := List.reverse_prefix.mpr
      (List.dropWhile_suffix (l := (l.dropWhile Char.isWhitespace).reverse)
        Char.isWhitespace)
    rwa [List.reverse_reverse] at h0
  have hdl : (pstrip l).dropWhile Char.isWhitespace = pstrip l := by
    cases hcases : pstrip l with
    | nil => rfl
    | cons x n' =>
      obtain ⟨rest, hrest⟩ := hpre
      rw [hcases, List.cons_append] at hrest
      have hx : Char.isWhitespace x = false := dropWhile_head_false _ hrest.symm
      rw [List.dropWhile_cons, hx]
      simp
  show (((pstrip l).dropWhile Char.isWhitespace).reverse.dropWhile
      Char.isWhitespace).reverse = pstrip l
  rw [hdl]
  show (((l.dropWhile Char.isWhitespace).reverse.dropWhile
      Char.isWhitespace).reverse.reverse.dropWhile Char.isWhitespace).reverse
      = pstrip l
  rw [List.reverse_reverse, dropWhile_self]
  rfl

/-! ### The ingest loop: fuel stability, strip relation, reconstruction -/

theorem windowLoop_nil_of_le {t : List Char} {cs ov start : Nat}
    (h : t.length ≤ start) : ∀ f, windowLoop f t cs ov start = [] := by
  intro f
  cases f with
  | zero => rfl
  | succ f => simp [windowLoop, Nat.not_lt.mpr h]

/-- The loop position strictly increases: with `overlap < chunk_size` the
next start is `start + (chunk_size − overlap) ≥ start + 1`. -/
theorem ingest_start_lt_next {cs ov start : Nat} (hov : ov < cs) :
    start < start + cs - ov := by omega

theorem windowLoop_stable {t : List Char} {cs ov : Nat} (hov : ov < cs) :
    ∀ (f1 start f2 : Nat), t.length - start ≤ f1 → t.length - start ≤ f2 →
    windowLoop f1 t cs ov start = windowLoop f2 t cs ov start := by
  intro f1
  induction f1 with
  | zero =>
    intro start f2 h1 _
    have hst : t.length ≤ start := by omega
    rw [windowLoop_nil_of_le hst, windowLoop_nil_of_le hst]
  | succ f1 ih =>
    intro start f2 h1 h2
    by_cases hlt : start < t.length
    · have hf2 : f2 ≠ 0 := by omega
      obtain ⟨f2', rfl⟩ := Nat.exists_eq_succ_of_ne_zero hf2
      simp only [windowLoop, if_pos hlt]
      rw [ih (start + cs - ov) f2' (by omega) (by omega)]
    · rw [windowLoop_nil_of_le (Nat.not_lt.mp hlt),
        windowLoop_nil_of_le (Nat.not_lt.mp hlt)]

theorem ingestLoop_eq_map_pstrip (t : List Char) (cs ov : Nat) :
    ∀ (f start : Nat), ingestLoop f t cs ov start =
      (windowLoop f t cs ov start).map pstrip := by
  intro f
  induction f with
  | zero => intro start; rfl
  | succ f ih =>
    intro start
    simp only [ingestLoop, windowLoop]
    split
    · rw [List.map_cons, ih]
    · rfl

theorem windowLoop_drop_flatten {t : List Char} {cs ov : Nat} (hov : ov < cs) :
    ∀ (f start : Nat), t.length - start ≤ f →
    ((windowLoop f t cs ov start).map (List.drop ov)).flatten =
      t.drop (start + ov) := by
  intro f
  induction f with
  | zero =>
    intro start h
    rw [windowLoop_nil_of_le (by omega)]
    simp only [List.map_nil, List.flatten_nil]
    exact (List.drop_eq_nil_of_le (by omega)).symm
  | succ f ih =>
    intro start h
    by_cases hlt : start < t.length
    · simp only [windowLoop, if_pos hlt, List.map_cons, List.flatten_cons]
      rw [ih (start + cs - ov) (by omega)]
      have h1 : ((t.drop start).take cs).drop ov = (t.drop (start + ov)).take (cs - ov) := by
        rw [List.drop_take, List.drop_drop]
      have h2 : start + cs - ov + ov = start + cs := by omega
      have h3 : t.drop (start + cs) = (t.drop (start + ov)).drop (cs - ov) := by
        rw [List.drop_drop]
        congr 1
        omega
      rw [h1, h2, h3, List.take_append_drop]
    · rw [windowLoop_nil_of_le (Nat.not_lt.mp hlt)]
      simp only [List.map_nil, List.flatten_nil]
      exact (List.drop_eq_nil_of_le (by omega)).symm

theorem windowLoop_reconstruct {t : List Char} {cs ov : Nat} (hov : ov < cs)
    (f : Nat) (hf : t.length ≤ f) (ht : t ≠ []) :
    reconstruct ov (windowLoop f t cs ov 0) = t := by
  have hlen : 0 < t.length := List.length_pos.mpr ht
  obtain ⟨f', rfl⟩ := Nat.exists_eq_succ_of_ne_zero (by omega : f ≠ 0)
  simp only [windowLoop, if_pos hlen, List.drop_zero]
  simp only [reconstruct]
  rw [windowLoop_drop_flatten hov f' (0 + cs - ov) (by omega)]
  have : 0 + cs - ov + ov = cs := by omega
  rw [this, List.take_append_drop]

/-- The raw windows of the ingest chunker concatenate back — after removing
the first `overlap` characters of every window but the first — to the
whitespace-normalized input. -/
theorem ingestWindows_reconstruct (t : List Char) {cs ov : Nat} (hov : ov < cs) :
    reconstruct ov (ingestWindows t cs ov) = normalizeWs t := by
  unfold ingestWindows
  split
  · simp [reconstruct]
  · next hgt =>
    exact windowLoop_reconstruct hov _ le_rfl
      (by intro hnil; rw [hnil] at hgt; simp at hgt)

/-- `chunk_text` of `ingest.py` is exactly the per-window `strip` of the raw
windows. -/
theorem chunk_text_ingest_eq_map (t : List Char) (cs ov : Nat) :
    chunk_text_ingest t cs ov = (ingestWindows t cs ov).map pstrip := by
  unfold chunk_text_ingest ingestWindows
  split
  · simp only [List.map_cons, List.map_nil]
    rw [show normalizeWs t = pstrip (collapseWs t) from rfl, pstrip_eq_self_of_pstrip]
  · exact ingestLoop_eq_map_pstrip _ _ _ _ _

theorem ingestLoop_mem_length {t : List Char} {cs ov : Nat} :
    ∀ (f start : Nat), ∀ c ∈ ingestLoop f t cs ov start, c.length ≤ cs := by
  intro f
  induction f with
  | zero => intro start c hc; simp [ingestLoop] at hc
  | succ f ih =>
    intro start c hc
    simp only [ingestLoop] at hc
    split at hc
    · rcases List.mem_cons.mp hc with h | h
      · subst h
        calc (pstrip ((t.drop start).take cs)).length
            ≤ ((t.drop start).take cs).length := pstrip_length_le _
          _ ≤ cs := by simp only [List.length_take]; exact Nat.min_le_left _ _
      · exact ih _ c h
    · simp at hc

/-! ### Lemmas about the ranking in `retrieve` -/

theorem rankIdx_length (sims : List ℚ) : (rankIdx sims).length = sims.length := by
  unfold rankIdx
  rw [(List.perm_insertionSort _ _).length_eq, List.length_range]

theorem rankIdx_mem (sims : List ℚ) {i : Nat} (h : i ∈ rankIdx sims) :
    i < sims.length := by
  unfold rankIdx at h
  rw [List.mem_insertionSort] at h
  exact List.mem_range.mp h

theorem rankIdx_head_ge (sims : List ℚ) {i0 : Nat}
    (h : (rankIdx sims).head? = some i0) :
    ∀ j < sims.length, sims.getD j 0 ≤ sims.getD i0 0 := by
  haveI htot : IsTotal Nat (fun i j => sims.getD j 0 ≤ sims.getD i 0) :=
    ⟨fun a b => (le_total (sims.getD a 0) (sims.getD b 0)).symm⟩
  haveI htrans : IsTrans Nat (fun i j => sims.getD j 0 ≤ sims.getD i 0) :=
    ⟨fun _ _ _ hab hbc => le_trans hbc hab⟩
  have hsorted : List.Sorted (fun i j => sims.getD j 0 ≤ sims.getD i 0)
      (rankIdx sims) := List.sorted_insertionSort _ _
  intro j hj
  have hjmem : j ∈ rankIdx sims := by
    unfold rankIdx
    rw [List.mem_insertionSort]
    exact List.mem_range.mpr hj
  cases hr : rankIdx sims with
  | nil => rw [hr] at h; simp at h
  | cons i0' rest =>
    rw [hr] at h hjmem hsorted
    simp only [List.head?_cons, Option.some.injEq] at h
    subst h
    rcases List.mem_cons.mp hjmem with hj0 | hjr
    · subst hj0; exact le_refl _
    · exact List.rel_of_sorted_cons hsorted j hjr

theorem simScores_length {V : Type} (sim : V → V → ℚ) (q_emb : V)
    (chunks : List (Chunk V)) : (simScores sim q_emb chunks).length = chunks.length :=
  List.length_map _ _

theorem simScores_getD {V : Type} (sim : V → V → ℚ) (q_emb : V)
    (chunks : List (Chunk V)) {j : Nat} (hj : j < chunks.length) :
    (simScores sim q_emb chunks).getD j 0 = sim q_emb chunks[j].embedding := by
  unfold simScores
  rw [List.getD_eq_getElem _ _ (by simpa using hj), List.getElem_map]

/-! ### Claim theorems -/

/-- C1: for every query and every `k ≤` the number of chunks, `retrieve`
returns exactly `k` chunks, and the similarity score of the first returned
chunk against the query embedding is `≥` the score of every chunk in the
collection (stated for an arbitrary pairwise similarity function `sim`, which
instantiates to sklearn's cosine similarity). -/
theorem claim_C1_retrieve_topk {V : Type} (sim : V → V → ℚ)
    (encode : List Char → V) (chunks : List (Chunk V)) (query : List Char)
    (k : Nat) (hk : k ≤ chunks.length) :
    (retrieve sim encode chunks query k).length = k ∧
    ∀ c0, (retrieve sim encode chunks query k).head? = some c0 →
      ∀ c ∈ chunks,
        sim (encode query) c.embedding ≤ sim (encode query) c0.embedding := by
  constructor
  · unfold retrieve
    rw [List.length_map, List.length_take, rankIdx_length, simScores_length]
    exact Nat.min_eq_left hk
  · intro c0 hc0 c hc
    unfold retrieve at hc0
    rw [List.head?_map] at hc0
    obtain ⟨i0, hi0, hfo⟩ := Option.map_eq_some'.mp hc0
    have hh : (rankIdx (simScores sim (encode query) chunks)).head? = some i0 := by
      cases hk0 : k with
      | zero => rw [hk0] at hi0; simp at hi0
      | succ k' =>
        rw [hk0] at hi0
        cases hr : rankIdx (simScores sim (encode query) chunks) with
        | nil => rw [hr] at hi0; simp at hi0
        | cons a rest =>
          rw [hr] at hi0
          simpa using hi0
    have hi0lt : i0 < chunks.length := by
      have hmem := rankIdx_mem _ (List.mem_of_mem_head? hh)
      rwa [simScores_length] at hmem
    obtain ⟨j, hj, hcj⟩ := List.mem_iff_getElem.mp hc
    subst hcj
    subst hfo
    simp only [List.getD_eq_getElem _ _ hi0lt]
    have hmax := rankIdx_head_ge _ hh j
      (by rw [simScores_length]; exact hj)
    rw [simScores_getD sim _ chunks hj, simScores_getD sim _ chunks hi0lt] at hmax
    exact hmax

/-- Witness for C1: a concrete two-chunk collection, `k = 1`. -/
theorem claim_C1_retrieve_topk_witness :
    1 ≤ ([⟨"a", ['x'], (2 : ℚ)⟩, ⟨"b", ['y'], (3 : ℚ)⟩] : List (Chunk ℚ)).length ∧
    ((retrieve (fun a b => a * b) (fun _ => (1 : ℚ))
        [⟨"a", ['x'], (2 : ℚ)⟩, ⟨"b", ['y'], (3 : ℚ)⟩] ['q'] 1).length = 1 ∧
    ∀ c0, (retrieve (fun a b => a * b) (fun _ => (1 : ℚ))
        [⟨"a", ['x'], (2 : ℚ)⟩, ⟨"b", ['y'], (3 : ℚ)⟩] ['q'] 1).head? = some c0 →
      ∀ c ∈ ([⟨"a", ['x'], (2 : ℚ)⟩, ⟨"b", ['y'], (3 : ℚ)⟩] : List (Chunk ℚ)),
        (fun a b => a * b) ((fun _ => (1 : ℚ)) ['q']) c.embedding ≤
          (fun a b => a * b) ((fun _ => (1 : ℚ)) ['q']) c0.embedding) :=
  ⟨by decide, claim_C1_retrieve_topk (fun a b => a * b) (fun _ => (1 : ℚ))
    [⟨"a", ['x'], (2 : ℚ)⟩, ⟨"b", ['y'], (3 : ℚ)⟩] ['q'] 1 (by decide)⟩

theorem wordCount_spaceJoin (b : List (List Char))
    (h : ∀ w ∈ b, w ≠ [] ∧ ∀ c ∈ w, c.isWhitespace = false) :
    wordCount (spaceJoin b) = b.length := by
  unfold wordCount spaceJoin
  rw [splitWs_intercalate b h]

/-- C2: every chunk of the interactive word chunker holds at most `size`
words, and every chunk of the offline character chunker holds at most
`chunk_size` characters. -/
theorem claim_C2_chunk_bounds (text : List Char) (size cs ov : Nat)
    (hs : 0 < size) :
    (∀ L, chunk_text_app text size = some L → ∀ ch ∈ L, wordCount ch ≤ size) ∧
    (∀ ch ∈ chunk_text_ingest text cs ov, ch.length ≤ cs) := by
  constructor
  · intro L hL ch hch
    unfold chunk_text_app at hL
    rw [if_neg (by omega)] at hL
    injection hL with hL
    subst hL
    obtain ⟨b, hb, rfl⟩ := List.mem_map.mp hch
    obtain ⟨h1, h2, _⟩ := chunk_text_app_blocks text size _ b hb
    rw [wordCount_spaceJoin b h2]
    exact h1
  · intro ch hch
    unfold chunk_text_ingest at hch
    split at hch
    · next hle =>
      simp only [List.mem_singleton] at hch
      subst hch
      exact hle
    · exact ingestLoop_mem_length _ _ ch hch

/-- Witness for C2: size 2 on `"a b c"`, chunk size 3 with overlap 1 on
`"ab cd"`. -/
theorem claim_C2_chunk_bounds_witness : 0 < 2 ∧
    ((∀ L, chunk_text_app "a b c".toList 2 = some L →
        ∀ ch ∈ L, wordCount ch ≤ 2) ∧
     (∀ ch ∈ chunk_text_ingest "a b c".toList 3 1, ch.length ≤ 3)) :=
  ⟨by decide, claim_C2_chunk_bounds "a b c".toList 2 3 1 (by decide)⟩

/-- C9: the word chunks of `app.py` partition the words: joining all chunks
with single spaces equals the single-space join of the text's words. -/
theorem claim_C9_word_partition (text : List Char) (size : Nat) (hs : 0 < size)
    (L : List (List Char)) (hL : chunk_text_app text size = some L) :
    List.intercalate [' '] L = List.intercalate [' '] (splitWs text) := by
  unfold chunk_text_app at hL
  rw [if_neg (by omega)] at hL
  injection hL with hL
  subst hL
  have hne : ∀ b ∈ wordWindows size (splitWs text).length (splitWs text), b ≠ [] :=
    fun b hb => (chunk_text_app_blocks text size _ b hb).2.2 hs
  have hmapeq : (wordWindows size (splitWs text).length (splitWs text)).map spaceJoin =
      (wordWindows size (splitWs text).length (splitWs text)).map
        (List.intercalate [' ']) := rfl
  rw [hmapeq, intercalate_map_intercalate [' '] _ hne,
    wordWindows_flatten size hs (splitWs text).length (splitWs text) le_rfl]

/-- Witness for C9: size 2 on `"a b c"`. -/
theorem claim_C9_word_partition_witness :
    (0 < 2 ∧ chunk_text_app "a b c".toList 2 = some ["a b".toList, "c".toList]) ∧
    List.intercalate [' '] ["a b".toList, "c".toList] =
      List.intercalate [' '] (splitWs "a b c".toList) :=
  ⟨⟨by decide, by decide⟩,
    claim_C9_word_partition "a b c".toList 2 (by decide) _ (by decide)⟩

/-- Counterexample to C3: on empty input the offline character chunker does
not return an empty sequence — `len("") <= chunk_size`, so it returns the
one-element list holding the empty chunk. -/
theorem claim_C3_counterexample :
    chunk_text_ingest [] 1200 200 = [[]] ∧ chunk_text_ingest [] 1200 200 ≠ [] := by
  decide

/-- C3 amended: on empty input the word chunker returns the empty sequence,
while the character chunker returns a one-element sequence holding the empty
chunk; the word chunker returns (raises no error) for every input and every
positive size. -/
theorem claim_C3_empty_amended (size cs ov : Nat) (hs : 0 < size) :
    chunk_text_app [] size = some [] ∧
    chunk_text_ingest [] cs ov = [[]] ∧
    ∀ text, (chunk_text_app text size).isSome = true := by
  refine ⟨?_, ?_, ?_⟩
  · unfold chunk_text_app
    rw [if_neg (by omega)]
    rfl
  · unfold chunk_text_ingest
    rw [if_pos (show (normalizeWs []).length ≤ cs from Nat.zero_le cs)]
    rfl
  · intro text
    unfold chunk_text_app
    rw [if_neg (by omega)]
    rfl

/-- Witness for the amended C3 at the configured sizes (300 words; 1200/200
characters). -/
theorem claim_C3_empty_amended_witness : 0 < 300 ∧
    (chunk_text_app [] 300 = some [] ∧
     chunk_text_ingest [] 1200 200 = [[]] ∧
     ∀ text, (chunk_text_app text 300).isSome = true) :=
  ⟨by decide, claim_C3_empty_amended 300 1200 200 (by decide)⟩

/-- Counterexample to C4: per-chunk `.strip()` loses boundary whitespace, so
overlap-removed concatenation does not reconstruct the normalized text.  On
`"ab cd"` with `chunk_size = 3`, `overlap = 1` the windows are
`["ab ", " cd", "d"]`, the stripped chunks are `["ab", "cd", "d"]`, and the
reconstruction gives `"abd"`. -/
theorem claim_C4_counterexample :
    chunk_text_ingest "ab cd".toList 3 1 = ["ab".toList, "cd".toList, "d".toList] ∧
    reconstruct 1 (chunk_text_ingest "ab cd".toList 3 1) = "abd".toList ∧
    reconstruct 1 (chunk_text_ingest "ab cd".toList 3 1) ≠
      normalizeWs "ab cd".toList := by
  decide

/-- C4 amended: each produced chunk is the whitespace-strip of its raw window
`text[start:start+chunk_size]`, and the raw windows — with the first `overlap`
characters removed from every window but the first — concatenate to the
whitespace-normalized input. -/
theorem claim_C4_reconstruct_amended (t : List Char) (cs ov : Nat)
    (hov : ov < cs) :
    chunk_text_ingest t cs ov = (ingestWindows t cs ov).map pstrip ∧
    reconstruct ov (ingestWindows t cs ov) = normalizeWs t :=
  ⟨chunk_text_ingest_eq_map t cs ov, ingestWindows_reconstruct t hov⟩

/-- Witness for the amended C4 on `"ab cd"`, `chunk_size = 3`, `overlap = 1`. -/
theorem claim_C4_reconstruct_amended_witness : 1 < 3 ∧
    (chunk_text_ingest "ab cd".toList 3 1 =
      (ingestWindows "ab cd".toList 3 1).map pstrip ∧
     reconstruct 1 (ingestWindows "ab cd".toList 3 1) =
      normalizeWs "ab cd".toList) :=
  ⟨by decide, claim_C4_reconstruct_amended "ab cd".toList 3 1 (by decide)⟩

/-- C8: under `overlap < chunk_size` the offline chunking loop terminates:
the loop position strictly increases each iteration
(`start < start + chunk_size - overlap`), so `len(text) - start` bounds the
remaining iterations — any two fuels at least that large give the same
output. -/
theorem claim_C8_ingest_terminates (t : List Char) (cs ov : Nat)
    (hov : ov < cs) :
    (∀ start : Nat, start < start + cs - ov) ∧
    ∀ (f1 f2 start : Nat), t.length - start ≤ f1 → t.length - start ≤ f2 →
      ingestLoop f1 t cs ov start = ingestLoop f2 t cs ov start := by
  constructor
  · intro start
    omega
  · intro f1 f2 start h1 h2
    rw [ingestLoop_eq_map_pstrip, ingestLoop_eq_map_pstrip,
      windowLoop_stable hov f1 start f2 h1 h2]

/-- Witness for C8 on `"abcdef"`, `chunk_size = 3`, `overlap = 1`, comparing
fuel 6 with fuel 10. -/
theorem claim_C8_ingest_terminates_witness :
    (1 < 3 ∧ "abcdef".toList.length - 0 ≤ 6 ∧ "abcdef".toList.length - 0 ≤ 10) ∧
    ingestLoop 6 "abcdef".toList 3 1 0 = ingestLoop 10 "abcdef".toList 3 1 0 :=
  ⟨⟨by decide, by decide, by decide⟩,
    (claim_C8_ingest_terminates "abcdef".toList 3 1 (by decide)).2 6 10 0
      (by decide) (by decide)⟩

/-- C5: every embedding vector inserted into the persisted inner-product
index by `build_faiss` is L2-normalized (unit Euclidean norm), for every
non-zero input vector. -/
theorem claim_C5_index_normalized {d : Nat}
    (embs : List (EuclideanSpace ℝ (Fin d))) (h : ∀ v ∈ embs, v ≠ 0) :
    ∀ w ∈ build_faiss embs, ‖w‖ = 1 := by
  intro w hw
  obtain ⟨v, hv, rfl⟩ := List.mem_map.mp hw
  show ‖‖v‖⁻¹ • v‖ = 1
  exact norm_smul_inv_norm (h v hv)

/-- Witness for C5 at the nonzero vector `e1`. -/
theorem claim_C5_index_normalized_witness :
    (∀ v ∈ [e1], v ≠ 0) ∧ ∀ w ∈ build_faiss [e1], ‖w‖ = 1 := by
  have h : ∀ v ∈ [e1], v ≠ 0 := by
    intro v hv
    rw [List.mem_singleton] at hv
    subst hv
    intro h0
    exact one_ne_zero (congrFun h0 0)
  exact ⟨h, claim_C5_index_normalized [e1] h⟩

/-- Counterexample to C6: in the interactive path a missing key does not
raise.  `app.py` reads the key with default `""` and proceeds to
`genai.configure`; on an environment with no key the startup succeeds with
the empty key and is no error. -/
theorem claim_C6_counterexample :
    appStartup (fun _ => none) = Except.ok "" ∧
    ∀ msg, appStartup (fun _ => none) ≠ Except.error msg :=
  ⟨rfl, fun _ h => Except.noConfusion h⟩

/-- C6 amended: in the offline path with remote embeddings selected and a
nonempty file list, an empty key raises `RuntimeError` before any embedding
or network call (the result is this error for every possible embedder); the
interactive path performs no key check — it always succeeds and passes the
key, defaulted to `""`, to `genai.configure`. -/
theorem claim_C6_missing_key_amended {V : Type} (nrm : V → V)
    (embedRemote embedLocal : List (List Char) → List V)
    (files : List FileEntry) (hne : files ≠ []) :
    mainIngest nrm true "" embedRemote embedLocal files =
      Except.error "GEMINI_API_KEY not set in environment." ∧
    ∀ env : String → Option String,
      appStartup env = Except.ok ((env "GEMINI_API_KEY").getD "") := by
  constructor
  · unfold mainIngest
    rw [if_neg hne]
    rfl
  · intro env
    rfl

/-- Witness for the amended C6 with one file and trivial embedders. -/
theorem claim_C6_missing_key_amended_witness :
    ([⟨"a.txt", "hello".toList⟩] : List FileEntry) ≠ [] ∧
    (mainIngest (id : ℚ → ℚ) true "" (fun _ => []) (fun _ => [])
        [⟨"a.txt", "hello".toList⟩] =
      Except.error "GEMINI_API_KEY not set in environment." ∧
     ∀ env : String → Option String,
       appStartup env = Except.ok ((env "GEMINI_API_KEY").getD "")) :=
  ⟨by decide, claim_C6_missing_key_amended id (fun _ => []) (fun _ => [])
    [⟨"a.txt", "hello".toList⟩] (by decide)⟩

/-- Counterexample to C7: a folder that holds a file, just not a usable one,
makes the offline path proceed past the early return — it embeds the empty
chunk list and writes (empty) index artifacts instead of returning without
artifacts.  Here the single file's text is 5 characters, below the 20
character threshold. -/
theorem claim_C7_counterexample :
    mainIngest (id : ℚ → ℚ) false "" (fun _ => []) (fun _ => [])
        [⟨"x.bin", "hello".toList⟩] = Except.ok (some ⟨[], [], []⟩) ∧
    mainIngest (id : ℚ → ℚ) false "" (fun _ => []) (fun _ => [])
        [⟨"x.bin", "hello".toList⟩] ≠ Except.ok none := by
  refine ⟨rfl, ?_⟩
  intro h
  rw [show mainIngest (id : ℚ → ℚ) false "" (fun _ => []) (fun _ => [])
      [⟨"x.bin", "hello".toList⟩] = Except.ok (some ⟨[], [], []⟩) from rfl] at h
  exact Option.noConfusion (Except.ok.inj h)

/-- C7 amended: for an *empty* documents folder the interactive path loads
zero documents and builds zero chunks, and the offline path returns without
error and without writing any index artifacts; the interactive document list
is also empty whenever no directory entry is a regular `.txt` file. -/
theorem claim_C7_empty_folder_amended {V : Type} (nrm : V → V)
    (useGemini : Bool) (apiKey : String)
    (embedRemote embedLocal : List (List Char) → List V)
    (encode : List Char → V) (entries : List DirEntry)
    (hent : ∀ e ∈ entries, (e.isFile && ".txt".toList.isSuffixOf e.name.toList) = false) :
    load_documents entries = [] ∧
    buildChunks encode (load_documents entries) = [] ∧
    mainIngest nrm useGemini apiKey embedRemote embedLocal [] = Except.ok none := by
  have hld : load_documents entries = [] := by
    unfold load_documents
    rw [List.filter_eq_nil_iff.mpr
      (fun e he => by rw [hent e he]; exact Bool.false_ne_true)]
    rfl
  refine ⟨hld, ?_, ?_⟩
  · rw [hld]
    rfl
  · unfold mainIngest
    rw [if_pos rfl]

/-- Witness for the amended C7: an empty folder, and one non-`.txt` entry. -/
theorem claim_C7_empty_folder_amended_witness :
    (∀ e ∈ ([⟨"x.bin", true, "hello".toList⟩] : List DirEntry),
      (e.isFile && ".txt".toList.isSuffixOf e.name.toList) = false) ∧
    (load_documents [⟨"x.bin", true, "hello".toList⟩] = [] ∧
     buildChunks (fun _ => (0 : ℚ)) (load_documents [⟨"x.bin", true, "hello".toList⟩]) = [] ∧
     mainIngest (id : ℚ → ℚ) false "" (fun _ => []) (fun _ => []) [] = Except.ok none) :=
  ⟨by decide, claim_C7_empty_folder_amended id false "" (fun _ => []) (fun _ => [])
    (fun _ => (0 : ℚ)) [⟨"x.bin", true, "hello".toList⟩] (by decide)⟩


theorem ingestCollect_cons (f : FileEntry) (fs : List FileEntry) :
    ingestCollect (f :: fs) =
      if f.text = [] ∨ (pstrip f.text).length < 20 then ingestCollect fs
      else
        ((chunk_text_ingest f.text CHUNK_SIZE_CHARS CHUNK_OVERLAP) ++
          (ingestCollect fs).1,
         ((List.range (chunk_text_ingest f.text CHUNK_SIZE_CHARS
            CHUNK_OVERLAP).length).map fun i => ⟨f.name, i⟩) ++
          (ingestCollect fs).2) := rfl

/-- C10: after the offline ingestion loop, the chunk-text list and the
metadata list have equal length and are positionally aligned: the metadata
entry at every position `j` carries the source file name of the chunk at `j`,
and its `chunk_id` is that chunk's ordinal within its source document,
starting from 0. -/
theorem claim_C10_meta_aligned (files : List FileEntry) :
    (ingestCollect files).1.length = (ingestCollect files).2.length ∧
    ∀ j, j < (ingestCollect files).1.length →
      ∃ f ∈ files, ∃ i,
        i < (chunk_text_ingest f.text CHUNK_SIZE_CHARS CHUNK_OVERLAP).length ∧
        (ingestCollect files).2.getD j ⟨"", 0⟩ = ⟨f.name, i⟩ ∧
        (ingestCollect files).1.getD j [] =
          (chunk_text_ingest f.text CHUNK_SIZE_CHARS CHUNK_OVERLAP).getD i [] := by
  induction files with
  | nil =>
    refine ⟨rfl, ?_⟩
    intro j hj
    simp [ingestCollect] at hj
  | cons f fs ih =>
    by_cases hus : f.text = [] ∨ (pstrip f.text).length < 20
    · rw [ingestCollect_cons, if_pos hus]
      refine ⟨ih.1, ?_⟩
      intro j hj
      obtain ⟨g, hg, i, hi, hm, ht⟩ := ih.2 j hj
      exact ⟨g, List.mem_cons_of_mem f hg, i, hi, hm, ht⟩
    · rw [ingestCollect_cons, if_neg hus]
      constructor
      · simp only [List.length_append, List.length_map, List.length_range]
        rw [ih.1]
      · intro j hj
        simp only [List.length_append] at hj
        by_cases hjlt :
            j < (chunk_text_ingest f.text CHUNK_SIZE_CHARS CHUNK_OVERLAP).length
        · refine ⟨f, List.mem_cons_self f fs, j, hjlt, ?_, ?_⟩
          · rw [List.getD_append _ _ _ _ (by simpa using hjlt)]
            rw [List.getD_eq_getElem _ _ (by simpa using hjlt), List.getElem_map]
            simp
          · rw [List.getD_append _ _ _ _ hjlt]
        · push_neg at hjlt
          have hj2 : j -
              (chunk_text_ingest f.text CHUNK_SIZE_CHARS CHUNK_OVERLAP).length <
              (ingestCollect fs).1.length := by omega
          obtain ⟨g, hg, i, hi, hm, ht⟩ := ih.2 _ hj2
          refine ⟨g, List.mem_cons_of_mem f hg, i, hi, ?_, ?_⟩
          · rw [List.getD_append_right _ _ _ _ (by simpa using hjlt)]
            simpa using hm
          · rw [List.getD_append_right _ _ _ _ hjlt]
            exact ht

/-- Witness for C10 on a one-file folder with a usable 39-character text. -/
theorem claim_C10_meta_aligned_witness :
    0 < (ingestCollect
      [⟨"a.txt", "this is a sufficiently long policy text".toList⟩]).1.length ∧
    ∃ f ∈ ([⟨"a.txt", "this is a sufficiently long policy text".toList⟩] :
        List FileEntry), ∃ i,
      i < (chunk_text_ingest f.text CHUNK_SIZE_CHARS CHUNK_OVERLAP).length ∧
      (ingestCollect
        [⟨"a.txt", "this is a sufficiently long policy text".toList⟩]).2.getD 0
          ⟨"", 0⟩ = ⟨f.name, i⟩ ∧
      (ingestCollect
        [⟨"a.txt", "this is a sufficiently long policy text".toList⟩]).1.getD 0 [] =
        (chunk_text_ingest f.text CHUNK_SIZE_CHARS CHUNK_OVERLAP).getD i [] :=
  ⟨by decide, (claim_C10_meta_aligned
    [⟨"a.txt", "this is a sufficiently long policy text".toList⟩]).2 0 (by decide)⟩


end RoomanAgent
